import Mathlib

/-!
Shallow embedding of the rate-limiting and caching core of the
`ai_memory_layer` service (src/ai_memory_layer/rate_limit.py and
src/ai_memory_layer/services/cache.py), together with proofs of the
behavioural claims made about it.

Modelling conventions:
* wall-clock instants (`time.time()`) are rationals;
* Python `int(...)` applied to a rational is truncation toward zero (`pyInt`);
* the in-process limiter state (a `defaultdict(deque)`) is a total function
  from composite keys to timestamp lists, with `[]` as the default;
* the in-process cache store (an insertion-ordered Python `dict`) is an
  association list; updating an existing key keeps its position, inserting a
  fresh key appends at the end, exactly as Python dictionaries behave;
* fallible operations (`ValueError`, a raising constructor) return
  `Option`/`Except` values.
-/

set_option autoImplicit false

namespace MemoryLayer

attribute [local semireducible] Rat.mul Rat.add Rat.sub Rat.inv

/-- Python `int(q)` on a rational: truncation toward zero. -/
def pyInt (q : ℚ) : ℤ := if 0 ≤ q then ⌊q⌋ else -⌊-q⌋

/-- Structure `RateLimitConfig` from rate_limit.py: a parsed limit. -/
structure RateLimitConfig where
  amount : ℕ
  window_seconds : ℕ
deriving DecidableEq, Repr

/-- Structure `RateLimitResult` from rate_limit.py: outcome of one `hit` call. -/
structure RateLimitResult where
  allowed : Bool
  count : ℕ
  reset_epoch_ms : ℤ
deriving DecidableEq, Repr

instance : Inhabited RateLimitResult := ⟨⟨false, 0, 0⟩⟩

/-- The composite window key `f"{amount}:{window_seconds}:{identifier}"`
used by `InMemoryRateLimiter._key`. -/
def limKey (cfg : RateLimitConfig) (identifier : String) : String :=
  toString cfg.amount ++ ":" ++ toString cfg.window_seconds ++ ":" ++ identifier

/-- The `InMemoryRateLimiter._windows` mapping: `defaultdict(deque)` keyed by
the composite key; absent keys read as the empty deque. -/
abbrev LimiterState : Type := String → List ℚ

def emptyLimiter : LimiterState := fun _ => []

/-- Embeds `InMemoryRateLimiter.hit`: purge timestamps `<= now - window_seconds`
from the front of the deque, append `now`, report the new count,
`allowed = count <= amount`, and `reset = int((entries[0] + window) * 1000)`
(with a defensive `now + window` fallback for an empty deque, which is dead
code since `now` was just appended). -/
def hit (st : LimiterState) (cfg : RateLimitConfig) (identifier : String) (now : ℚ) :
    RateLimitResult × LimiterState :=
  let key := limKey cfg identifier
  let windowStart : ℚ := now - (cfg.window_seconds : ℚ)
  let entries := ((st key).dropWhile fun t => decide (t ≤ windowStart)) ++ [now]
  let count := entries.length
  let reset : ℤ :=
    match entries with
    | [] => pyInt ((now + (cfg.window_seconds : ℚ)) * 1000)
    | t :: _ => pyInt ((t + (cfg.window_seconds : ℚ)) * 1000)
  (⟨decide (count ≤ cfg.amount), count, reset⟩,
   fun k => if k = key then entries else st k)

/-- Iterate `hit` for one config and identifier over a list of call times,
collecting the results in order. -/
def runHits (cfg : RateLimitConfig) (identifier : String) :
    LimiterState → List ℚ → List RateLimitResult
  | _, [] => []
  | st, t :: ts =>
    let p := hit st cfg identifier t
    p.1 :: runHits cfg identifier p.2 ts

/-- Embeds `RedisRateLimiter.hit`: the Lua script atomically increments the key and
returns `(count, pttl)`; the Python side replaces a negative ttl by the full
window and sets `reset_epoch_ms = int(time.time() * 1000 + ttl_ms)`.  The
values returned by Redis (`count`, `pttl`) are inputs of the model. -/
def redisHit (cfg : RateLimitConfig) (count : ℕ) (pttl : ℤ) (now : ℚ) : RateLimitResult :=
  let windowMs : ℤ := (cfg.window_seconds : ℤ) * 1000
  let ttlMs : ℤ := if pttl < 0 then windowMs else pttl
  ⟨decide (count ≤ cfg.amount), count, pyInt (now * 1000 + (ttlMs : ℚ))⟩

/-! ## Limit-string parsing (`_parse_limit`)

The regex is `^\s*(\d+)\s*(?:/|\s*/?\s*per\s+)?\s*(second|minute|hour|day)s?\s*$`
with `re.IGNORECASE`.  Between digits and unit word, the separator region
`\s*(?:/|\s*/?\s*per\s+)?\s*` denotes exactly the language
`ws* slash? ws* ("per" ws+)?`: the first alternative contributes
`ws* "/" ws*`, the second `ws* "/"? ws* "per" ws+`, the absent group `ws*`.
The matcher below consumes that language deterministically; determinism is
justified because no unit word starts with `/` or with the letters `per`,
so committing to a leading slash or to a `per` keyword never loses a match
the regex would have found.  Whitespace and digits are modelled at ASCII
granularity (the configuration strings being parsed are ASCII). -/

/-- ASCII whitespace, the characters Python's `\s` matches on ASCII text. -/
def isWsChar (c : Char) : Bool :=
  c = ' ' || c = '\t' || c = '\n' || c = '\r' || c = '\x0b' || c = '\x0c'

/-- Strip `pat` (given in lowercase) from the front of `cs`, comparing
case-insensitively, returning the remainder on success. -/
def stripCI : List Char → List Char → Option (List Char)
  | [], cs => some cs
  | _ :: _, [] => none
  | p :: ps, c :: cs => if c.toLower = p then stripCI ps cs else none

/-- Match one of the four unit words case-insensitively, returning its length
in seconds (`_parse_limit`'s `unit_seconds` table) and the remaining input. -/
def matchUnit (cs : List Char) : Option (ℕ × List Char) :=
  match stripCI ("second".toList) cs with
  | some r => some (1, r)
  | none =>
  match stripCI ("minute".toList) cs with
  | some r => some (60, r)
  | none =>
  match stripCI ("hour".toList) cs with
  | some r => some (3600, r)
  | none =>
  match stripCI ("day".toList) cs with
  | some r => some (86400, r)
  | none => none

/-- The part of the `_parse_limit` regex after the digit group: separator
region, unit word, optional plural `s`, trailing whitespace, end of input.
Returns the unit's window length in seconds. -/
def parseTail (r : List Char) : Option ℕ :=
  let r2 := r.dropWhile isWsChar
  let r3 := match r2 with
            | '/' :: t => t.dropWhile isWsChar
            | _ => r2
  let r4? : Option (List Char) :=
    match stripCI ("per".toList) r3 with
    | some (c :: t) => if isWsChar c then some (t.dropWhile isWsChar) else none
    | some [] => none
    | none => some r3
  match r4? with
  | none => none
  | some r4 =>
    match matchUnit r4 with
    | none => none
    | some (secs, r5) =>
      let r6 := match r5 with
                | c :: t => if c.toLower = 's' then t else r5
                | [] => r5
      if (r6.dropWhile isWsChar).isEmpty then some secs else none

/-- Numeric value of the digit group (`int(match.group(1))`). -/
def digitsVal (ds : List Char) : ℕ :=
  ds.foldl (fun n c => 10 * n + (c.toNat - 48)) 0

/-- Embeds `_parse_limit`: `none` models the `ValueError` raised on a failed match. -/
def parseLimit (s : String) : Option RateLimitConfig :=
  let cs := s.toList.dropWhile isWsChar
  let ds := cs.takeWhile Char.isDigit
  if ds.isEmpty then none
  else (parseTail (cs.dropWhile Char.isDigit)).map fun w => ⟨digitsVal ds, w⟩

/-- The spec's limit-string shape, read literally: `<amount>[/ per ]<unit>[s]`
with the separator either absent, a bare `/`, or the word `per` set off by
single spaces, exactly as in the spec's examples `200/minute` and
`10 per second`.  Checked as: a nonempty digit prefix followed by one of the
24 concrete separator/unit/plural tails. -/
def specTails : List (List Char) :=
  (["second", "seconds", "minute", "minutes", "hour", "hours", "day", "days"].map
    fun u => u.toList).flatMap fun u => [u, '/' :: u, ' ' :: 'p' :: 'e' :: 'r' :: ' ' :: u]

def specLimitOk (s : String) : Bool :=
  let ds := s.toList.takeWhile Char.isDigit
  !ds.isEmpty && decide (s.toList.dropWhile Char.isDigit ∈ specTails)

/-! ## In-process cache (`InMemoryCache`)

The Python store is an insertion-ordered `dict[str, tuple[float, Any]]`;
it is embedded as an association list of `(key, expires_at, value)` triples.
Assigning to an existing key keeps its position; a fresh key is appended,
matching Python dictionary semantics.  `min(self._store, key=...)` returns
the first key in insertion order achieving the minimal expiry, which is what
`minEntry` computes. -/

abbrev CacheStore (α : Type) : Type := List (String × ℚ × α)

/-- Dictionary read `self._store.get(key)`. -/
def lookup {α : Type} : CacheStore α → String → Option (ℚ × α)
  | [], _ => none
  | (k, e, v) :: rest, key => if k = key then some (e, v) else lookup rest key

/-- Dictionary removal `self._store.pop(key, None)`: drop the (first) binding of `key`. -/
def removeKey {α : Type} : CacheStore α → String → CacheStore α
  | [], _ => []
  | (k, e, v) :: rest, key => if k = key then rest else (k, e, v) :: removeKey rest key

/-- Dictionary write `self._store[key] = (expires, value)`: overwrite in place if the key is
present, else append. -/
def upsert {α : Type} (key : String) (ev : ℚ × α) : CacheStore α → CacheStore α
  | [] => [(key, ev)]
  | (k, e, v) :: rest =>
    if k = key then (key, ev) :: rest else (k, e, v) :: upsert key ev rest

/-- Computes `min(self._store, key=lambda k: self._store[k][0])` together with its
expiry: the first entry (in insertion order) with minimal `expires_at`;
`none` models the `ValueError` Python's `min` raises on an empty store. -/
def minEntry {α : Type} : CacheStore α → Option (String × ℚ)
  | [] => none
  | (k, e, _) :: rest =>
    match minEntry rest with
    | none => some (k, e)
    | some (k', e') => if e ≤ e' then some (k, e) else some (k', e')

/-- Embeds `InMemoryCache.get`: a present entry with `expires_at < now` is popped
and reads as a miss; otherwise the value is returned. -/
def cacheGet {α : Type} (st : CacheStore α) (key : String) (now : ℚ) :
    Option α × CacheStore α :=
  match lookup st key with
  | none => (none, st)
  | some (e, v) => if e < now then (none, removeKey st key) else (some v, st)

/-- Embeds `InMemoryCache.set`: when `len(store) >= max_items`, first drop the
earliest-expiring entry (a `ValueError`, modelled as `none`, if the store is
empty with `max_items = 0`), then write `(now + ttl, value)` under `key`. -/
def cacheSet {α : Type} (maxItems : ℕ) (st : CacheStore α) (key : String) (v : α)
    (ttl now : ℚ) : Option (CacheStore α) :=
  if maxItems ≤ st.length then
    match minEntry st with
    | none => none
    | some (k0, _) => some (upsert key (now + ttl, v) (removeKey st k0))
  else some (upsert key (now + ttl, v) st)

/-- Embeds `InMemoryCache.delete_prefix`: pop every key starting with `pre`. -/
def deleteByPre {α : Type} (st : CacheStore α) (pre : String) : CacheStore α :=
  st.filter fun kv => !(pre.toList.isPrefixOf kv.1.toList)

/-- One externally visible operation on an `InMemoryCache`. -/
inductive CacheOp (α : Type) where
  | get (key : String) (now : ℚ)
  | set (key : String) (v : α) (ttl now : ℚ)
  | delPre (pre : String)

/-- Apply one operation to the store.  A `set` that raises (`minEntry`
empty) leaves the store unchanged, as the exception propagates before any
mutation. -/
def applyOp {α : Type} (maxItems : ℕ) (st : CacheStore α) : CacheOp α → CacheStore α
  | .get k now => (cacheGet st k now).2
  | .set k v ttl now => (cacheSet maxItems st k v ttl now).getD st
  | .delPre p => deleteByPre st p

def runOps {α : Type} (maxItems : ℕ) : CacheStore α → List (CacheOp α) → CacheStore α
  | st, [] => st
  | st, op :: ops => runOps maxItems (applyOp maxItems st op) ops

/-! ## `CacheService` -/

/-- Structure for `CacheService` over the in-process backend: the `enabled` flag, the
default search TTL, and the owned `InMemoryCache` (capacity plus store). -/
structure CacheService (α : Type) where
  enabled : Bool
  search_ttl : ℚ
  max_items : ℕ
  store : CacheStore α
deriving DecidableEq

/-- Python's `ttl or self.search_ttl`: `None` and the falsy `0` both select
the default. -/
def ttlOrDefault (ttl : Option ℚ) (dflt : ℚ) : ℚ :=
  match ttl with
  | none => dflt
  | some t => if t = 0 then dflt else t

/-- Embeds `CacheService.get`: short-circuits to a miss when disabled, without
touching the backend. -/
def serviceGet {α : Type} (svc : CacheService α) (key : String) (now : ℚ) :
    Option α × CacheService α :=
  if svc.enabled then
    let p := cacheGet svc.store key now
    (p.1, { svc with store := p.2 })
  else (none, svc)

/-- Embeds `CacheService.set`: a no-op when disabled; otherwise defers to the
backend with `ttl or self.search_ttl`. -/
def serviceSet {α : Type} (svc : CacheService α) (key : String) (v : α)
    (ttl : Option ℚ) (now : ℚ) : Option (CacheService α) :=
  if svc.enabled then
    (cacheSet svc.max_items svc.store key v (ttlOrDefault ttl svc.search_ttl) now).map
      fun st => { svc with store := st }
  else some svc

/-! ## Backend selection (`_default_backend`, `_build_limiter`) -/

/-- The configuration fields consumed by backend selection (the settings
object of `ai_memory_layer.config`, reduced to the fields these functions
read). -/
structure Settings where
  redis_url : Option String
  environment : String
  require_redis_in_production : Bool
  cache_max_items : ℕ

/-- Python `str.lower()` at ASCII granularity (configuration values such as
environment names are ASCII). -/
def pyLower (s : String) : String :=
  String.mk (s.toList.map Char.toLower)

/-- Computes `environment.lower() == "production" and require_redis_in_production`. -/
def prodStrict (s : Settings) : Bool :=
  pyLower s.environment == "production" && s.require_redis_in_production

inductive CacheBackendChoice where
  | redis (url : String)
  | inMemory (maxItems : ℕ)
deriving DecidableEq

inductive LimiterChoice where
  | redis (url : String)
  | inMemory
deriving DecidableEq

/-- Embeds `cache._default_backend`.  `redisOk` is whether constructing
`RedisCache(url)` succeeds; a raised exception is `Except.error` and, as in
the source, there is no `try` around the construction. -/
def defaultCacheBackend (s : Settings) (redisOk : Bool) :
    Except String CacheBackendChoice :=
  match s.redis_url with
  | some url =>
    if redisOk then .ok (.redis url) else .error "redis construction failed"
  | none =>
    if prodStrict s then .error "Redis is required for cache in production environment"
    else .ok (.inMemory s.cache_max_items)

/-- Embeds `rate_limit._build_limiter`.  The `RedisRateLimiter` construction is tried;
on failure the exception is re-raised only in production-strict mode,
otherwise the in-memory limiter is returned. -/
def buildLimiter (s : Settings) (redisOk : Bool) : Except String LimiterChoice :=
  match s.redis_url with
  | some url =>
    if redisOk then .ok (.redis url)
    else if prodStrict s then .error "rate limit redis backend failed"
    else .ok .inMemory
  | none => .ok .inMemory

/-! ## Middleware (`RateLimitMiddleware`) -/

/-- The JSON body `{"detail": ..., "retry_after": ...}` of a 429. -/
structure RejectBody where
  detail : String
  retry_after : ℤ
deriving DecidableEq

/-- A response as far as the middleware observes and mutates it: status,
header list, and the rejection body when the middleware itself built the
response. -/
structure HttpResponse where
  status : ℕ
  headers : List (String × String)
  body : Option RejectBody
deriving DecidableEq

/-- Header write `response.headers[name] = value`: overwrite in place or append. -/
def setHeader : List (String × String) → String → String → List (String × String)
  | [], n, v => [(n, v)]
  | (k, w) :: rest, n, v =>
    if k = n then (n, v) :: rest else (k, w) :: setHeader rest n v

/-- Embeds `RateLimitMiddleware._apply_headers`. -/
def applyQuotaHeaders (gcfg tcfg : RateLimitConfig) (resp : HttpResponse)
    (g : RateLimitResult) (t : Option RateLimitResult) : HttpResponse :=
  let hs := setHeader resp.headers "X-RateLimit-Limit" (toString gcfg.amount)
  let hs := setHeader hs "X-RateLimit-Remaining"
    (toString (max 0 ((gcfg.amount : ℤ) - (g.count : ℤ))))
  let hs := setHeader hs "X-RateLimit-Reset" (toString (Int.fdiv g.reset_epoch_ms 1000))
  match t with
  | none => { resp with headers := hs }
  | some tr =>
    let hs := setHeader hs "X-RateLimit-Tenant-Limit" (toString tcfg.amount)
    let hs := setHeader hs "X-RateLimit-Tenant-Remaining"
      (toString (max 0 ((tcfg.amount : ℤ) - (tr.count : ℤ))))
    let hs := setHeader hs "X-RateLimit-Tenant-Reset"
      (toString (Int.fdiv tr.reset_epoch_ms 1000))
    { resp with headers := hs }

/-- Embeds `RateLimitMiddleware._reject`: build the 429 `JSONResponse`.
`retry_after = max(1, int(reset_epoch_ms / 1000 - time.time()))`, and the
correlation id is `getattr(request.state, "request_id", "unknown")`. -/
def rejectResponse (limitStr scope : String) (tenantId : Option String)
    (resetEpochMs : ℤ) (now : ℚ) (requestId : Option String) : HttpResponse :=
  let retryAfter : ℤ := max 1 (pyInt ((resetEpochMs : ℚ) / 1000 - now))
  let detail :=
    if scope = "tenant" then
      "Tenant rate limit exceeded for " ++ tenantId.getD "None" ++ ": " ++ limitStr
    else "Rate limit exceeded: " ++ limitStr
  { status := 429
    headers := [("Retry-After", toString retryAfter), ("X-Request-ID", requestId.getD "unknown")]
    body := some ⟨detail, retryAfter⟩ }

/-- What `dispatch` reads from a request: the path, the resolved tenant id
(outcome of `_resolve_tenant_id`), the IP identifier (outcome of
`_get_ip_identifier`), and `request.state.request_id` when set. -/
structure RequestModel where
  path : String
  tenantId : Option String
  ipIdentifier : String
  requestId : Option String

/-- The operational paths that bypass all checks. -/
def bypassPaths : List String :=
  ["/v1/admin/health", "/v1/admin/readiness", "/metrics", "/docs", "/openapi.json"]

/-- The quota headers `_apply_headers` can attach. -/
def quotaHeaderNames : List String :=
  ["X-RateLimit-Limit", "X-RateLimit-Remaining", "X-RateLimit-Reset",
   "X-RateLimit-Tenant-Limit", "X-RateLimit-Tenant-Remaining", "X-RateLimit-Tenant-Reset"]

/-- Embeds `RateLimitMiddleware.dispatch` over the in-process limiter:
`handlerResp` is the downstream `call_next` response. -/
def dispatch (globalLimitStr tenantLimitStr : String)
    (gcfg tcfg : RateLimitConfig) (st : LimiterState) (req : RequestModel)
    (now : ℚ) (handlerResp : HttpResponse) : HttpResponse × LimiterState :=
  if bypassPaths.contains req.path then (handlerResp, st)
  else
    let gp := hit st gcfg req.ipIdentifier now
    if gp.1.allowed then
      match req.tenantId with
      | some tid =>
        let tp := hit gp.2 tcfg ("tenant:" ++ tid) now
        if tp.1.allowed then
          (applyQuotaHeaders gcfg tcfg handlerResp gp.1 (some tp.1), tp.2)
        else
          (rejectResponse tenantLimitStr "tenant" (some tid) tp.1.reset_epoch_ms now
            req.requestId, tp.2)
      | none => (applyQuotaHeaders gcfg tcfg handlerResp gp.1 none, gp.2)
    else
      (rejectResponse globalLimitStr "global" none gp.1.reset_epoch_ms now
        req.requestId, gp.2)

/-! ## Verification-side definitions -/

/-- The Python dict invariant: all stored keys are distinct. -/
def keysNodup {α : Type} (st : CacheStore α) : Prop :=
  (st.map fun p => p.1).Nodup

/-- The result a `hit` yields while the window anchored at `t0` is intact:
count `n`, `allowed = n <= amount`, reset at `(t0 + window) * 1000`. -/
def steadyResult (cfg : RateLimitConfig) (t0 : ℚ) (n : ℕ) : RateLimitResult :=
  ⟨decide (n ≤ cfg.amount), n, pyInt ((t0 + (cfg.window_seconds : ℚ)) * 1000)⟩

/-- The results of `n` further hits in the window anchored at `t0`, with
running counts `base, base + 1, ...`. -/
def steadyFrom (cfg : RateLimitConfig) (t0 : ℚ) : ℕ → ℕ → List RateLimitResult
  | _, 0 => []
  | base, n + 1 => steadyResult cfg t0 base :: steadyFrom cfg t0 (base + 1) n

/-! ## Generic helper lemmas -/

theorem pyInt_of_nonneg {q : ℚ} (h : 0 ≤ q) : pyInt q = ⌊q⌋ := by
  simp [pyInt, h]

theorem optMap_isSome {α β : Type} (f : α → β) (o : Option α) :
    (o.map f).isSome = o.isSome := by
  cases o <;> rfl

theorem dropWhile_head_false {α : Type} {p : α → Bool} :
    ∀ {l : List α} {x : α} {xs : List α}, l.dropWhile p = x :: xs → p x = false
  | [], x, xs, h => by simp [List.dropWhile] at h
  | a :: l, x, xs, h => by
    rw [List.dropWhile_cons] at h
    by_cases hpa : p a = true
    · rw [if_pos hpa] at h
      exact dropWhile_head_false h
    · rw [if_neg hpa] at h
      cases h
      simpa using hpa

theorem pyInt_gt_of {q target : ℚ} (hq : 0 ≤ q) (h : target ≤ q) :
    (target - 1 : ℚ) < (pyInt q : ℚ) := by
  rw [pyInt_of_nonneg hq]
  have hfl : q - 1 < (⌊q⌋ : ℚ) := Int.sub_one_lt_floor q
  linarith

/-! ## C1: fixed-window quota semantics of `InMemoryRateLimiter.hit` -/

theorem steadyFrom_getD (cfg : RateLimitConfig) (t0 : ℚ) :
    ∀ (n base j : ℕ), j < n →
      (steadyFrom cfg t0 base n).getD j default = steadyResult cfg t0 (base + j)
  | 0, _, j, h => absurd h (Nat.not_lt_zero j)
  | n + 1, base, 0, _ => by simp [steadyFrom]
  | n + 1, base, j + 1, h => by
    have ih := steadyFrom_getD cfg t0 n (base + 1) j (Nat.lt_of_succ_lt_succ h)
    have harg : base + 1 + j = base + (j + 1) := by omega
    rw [harg] at ih
    simpa [steadyFrom] using ih

theorem hit_eq_of_stkey {st : LimiterState} {cfg : RateLimitConfig} {identifier : String}
    {t0 : ℚ} {acc : List ℚ} (hst : st (limKey cfg identifier) = t0 :: acc)
    {t : ℚ} (ht : t - (cfg.window_seconds : ℚ) < t0) :
    (hit st cfg identifier t).1 = steadyResult cfg t0 (acc.length + 2) ∧
    (hit st cfg identifier t).2 (limKey cfg identifier) = t0 :: (acc ++ [t]) := by
  have hp : (decide (t0 ≤ t - (cfg.window_seconds : ℚ))) = false := by
    simp only [decide_eq_false_iff_not, not_le]
    linarith
  have hdw : ((st (limKey cfg identifier)).dropWhile
      fun u => decide (u ≤ t - (cfg.window_seconds : ℚ))) = t0 :: acc := by
    rw [hst, List.dropWhile_cons, hp]
    simp
  have hlen2 : ((t0 :: acc) ++ [t]).length = acc.length + 2 := by
    simp
  constructor
  · simp only [hit]
    rw [hdw, hlen2, List.cons_append]
    rfl
  · simp only [hit]
    simp [hdw]

theorem runHits_steady (cfg : RateLimitConfig) (identifier : String) (t0 : ℚ) :
    ∀ (ts : List ℚ) (st : LimiterState) (acc : List ℚ),
      st (limKey cfg identifier) = t0 :: acc →
      (∀ t ∈ ts, t - (cfg.window_seconds : ℚ) < t0) →
      runHits cfg identifier st ts = steadyFrom cfg t0 (acc.length + 2) ts.length
  | [], _, _, _, _ => by simp [runHits, steadyFrom]
  | t :: ts, st, acc, hst, hts => by
    obtain ⟨h1, h2⟩ := hit_eq_of_stkey hst (hts t (List.mem_cons_self t ts))
    have ih := runHits_steady cfg identifier t0 ts (hit st cfg identifier t).2 (acc ++ [t]) h2
      (fun u hu => hts u (List.mem_cons_of_mem _ hu))
    have hlen : (acc ++ [t]).length + 2 = acc.length + 2 + 1 := by
      simp [List.length_append]
    rw [hlen] at ih
    simp only [runHits, h1, ih, List.length_cons, steadyFrom]

/-- C1.  Fixed-window quota semantics: starting from a fresh limiter, issue
`amount + 1` calls of `hit` at times `t0 :: rest` that all fall inside the
window anchored at `t0` (so nothing is purged).  Each of the first `amount`
calls reports `allowed = true`; the `amount + 1`-th call reports
`allowed = false` with `count = amount + 1` — the rejected attempt is itself
counted. -/
theorem fixed_window_quota (cfg : RateLimitConfig) (identifier : String)
    (t0 : ℚ) (rest : List ℚ) (_hamt : 1 ≤ cfg.amount) (hlen : rest.length = cfg.amount)
    (hwin : ∀ t ∈ t0 :: rest, t - (cfg.window_seconds : ℚ) < t0) :
    (∀ j < cfg.amount,
      ((runHits cfg identifier emptyLimiter (t0 :: rest)).getD j default).allowed = true) ∧
    ((runHits cfg identifier emptyLimiter (t0 :: rest)).getD cfg.amount default).allowed
      = false ∧
    ((runHits cfg identifier emptyLimiter (t0 :: rest)).getD cfg.amount default).count
      = cfg.amount + 1 := by
  have h0 : (hit emptyLimiter cfg identifier t0).1 = steadyResult cfg t0 1 := rfl
  have h0s : (hit emptyLimiter cfg identifier t0).2 (limKey cfg identifier) = t0 :: [] := by
    simp [hit, emptyLimiter]
  have hrest := runHits_steady cfg identifier t0 rest _ [] h0s
    (fun u hu => hwin u (List.mem_cons_of_mem _ hu))
  have hall : runHits cfg identifier emptyLimiter (t0 :: rest)
      = steadyFrom cfg t0 1 (rest.length + 1) := by
    simp only [runHits, h0, hrest, List.length_nil, steadyFrom]
  rw [hall, hlen]
  refine ⟨?_, ?_, ?_⟩
  · intro j hj
    rw [steadyFrom_getD cfg t0 (cfg.amount + 1) 1 j (by omega)]
    simp only [steadyResult, decide_eq_true_eq]
    omega
  · rw [steadyFrom_getD cfg t0 (cfg.amount + 1) 1 cfg.amount (by omega)]
    simp only [steadyResult, decide_eq_false_iff_not]
    omega
  · rw [steadyFrom_getD cfg t0 (cfg.amount + 1) 1 cfg.amount (by omega)]
    simp only [steadyResult]
    omega

theorem fixed_window_quota_witness :
    ((runHits ⟨1, 60⟩ "client" emptyLimiter [0, 1]).getD 0 default).allowed = true ∧
    ((runHits ⟨1, 60⟩ "client" emptyLimiter [0, 1]).getD 1 default).allowed = false ∧
    ((runHits ⟨1, 60⟩ "client" emptyLimiter [0, 1]).getD 1 default).count = 2 := by
  have h := fixed_window_quota ⟨1, 60⟩ "client" 0 [1] (by decide) (by decide)
    (by decide)
  exact ⟨h.1 0 (by decide), h.2.1, h.2.2⟩

/-! ## C7: `reset_epoch_ms` versus the call time -/

/-- C7, counterexample.  Two in-window hits with sub-millisecond timestamps
(window 1 s, amount 5): the first at `t1 = 99.0006 s`, the second at
`now = 100.0005 s`.  The retained oldest entry expires at `100.0006 s`, and
`int(100000.6) = 100000 ms`, which is *behind* the call instant
`100000.5 ms`: `reset_epoch_ms` is not strictly greater than the current
time at the moment of the call. -/
theorem reset_epoch_not_future_cex :
    ¬ ((mkRat 200001 2000) * 1000 <
      (((hit (hit emptyLimiter ⟨5, 1⟩ "c" (mkRat 495003 5000)).2
        ⟨5, 1⟩ "c" (mkRat 200001 2000)).1.reset_epoch_ms : ℚ))) := by
  decide

/-- C7, amended.  For every in-process `hit` (over a state whose recorded
timestamps are nonnegative, at a nonnegative call time, with a positive
window) and for every shared-backend `hit`, `reset_epoch_ms` exceeds
`now * 1000 - 1`: the reset instant can lag the call time only by the
sub-millisecond part lost to `int()` truncation, never by a full
millisecond; it is not always strictly in the future. -/
theorem reset_epoch_lag_lt_one_ms :
    (∀ (st : LimiterState) (cfg : RateLimitConfig) (identifier : String) (now : ℚ),
      (∀ k, ∀ t ∈ st k, (0 : ℚ) ≤ t) → 0 ≤ now → 1 ≤ cfg.window_seconds →
      (now * 1000 - 1 : ℚ) < ((hit st cfg identifier now).1.reset_epoch_ms : ℚ)) ∧
    (∀ (cfg : RateLimitConfig) (count : ℕ) (pttl : ℤ) (now : ℚ),
      0 ≤ now → 1 ≤ cfg.window_seconds →
      (now * 1000 - 1 : ℚ) < ((redisHit cfg count pttl now).reset_epoch_ms : ℚ)) := by
  constructor
  · intro st cfg identifier now hpos hnow hw
    have hwq : (1 : ℚ) ≤ (cfg.window_seconds : ℚ) := by exact_mod_cast hw
    rcases hdw : (st (limKey cfg identifier)).dropWhile
        (fun u => decide (u ≤ now - (cfg.window_seconds : ℚ))) with _ | ⟨t1, ls⟩
    · have hres : (hit st cfg identifier now).1.reset_epoch_ms
          = pyInt ((now + (cfg.window_seconds : ℚ)) * 1000) := by
        simp [hit, hdw]
      rw [hres]
      exact pyInt_gt_of (by nlinarith) (by nlinarith)
    · have ht1mem : t1 ∈ st (limKey cfg identifier) :=
        (List.dropWhile_sublist _).subset (hdw ▸ List.mem_cons_self t1 ls)
      have ht1pos : (0 : ℚ) ≤ t1 := hpos _ t1 ht1mem
      have ht1win : now - (cfg.window_seconds : ℚ) < t1 := by
        have := dropWhile_head_false hdw
        simpa [decide_eq_false_iff_not, not_le] using this
      have hres : (hit st cfg identifier now).1.reset_epoch_ms
          = pyInt ((t1 + (cfg.window_seconds : ℚ)) * 1000) := by
        simp [hit, hdw]
      rw [hres]
      exact pyInt_gt_of (by nlinarith) (by nlinarith)
  · intro cfg count pttl now hnow hw
    have hwq : (1 : ℚ) ≤ (cfg.window_seconds : ℚ) := by exact_mod_cast hw
    simp only [redisHit]
    by_cases hneg : pttl < 0
    · rw [if_pos hneg]
      refine pyInt_gt_of (by push_cast; nlinarith) (by push_cast; nlinarith)
    · rw [if_neg hneg]
      push_neg at hneg
      have hq : (0 : ℚ) ≤ (pttl : ℚ) := by exact_mod_cast hneg
      refine pyInt_gt_of (by nlinarith) (by nlinarith)

theorem reset_epoch_lag_lt_one_ms_witness :
    ((0 : ℚ) * 1000 - 1 < ((hit emptyLimiter ⟨1, 60⟩ "c" 0).1.reset_epoch_ms : ℚ)) ∧
    ((0 : ℚ) * 1000 - 1 < ((redisHit ⟨1, 60⟩ 1 (-1) 0).reset_epoch_ms : ℚ)) :=
  ⟨reset_epoch_lag_lt_one_ms.1 emptyLimiter ⟨1, 60⟩ "c" 0
      (fun k t h => by simp [emptyLimiter] at h) (by norm_num) (by norm_num),
    reset_epoch_lag_lt_one_ms.2 ⟨1, 60⟩ 1 (-1) 0 (by norm_num) (by norm_num)⟩

/-! ## Cache store lemmas -/

theorem lookup_upsert_self {α : Type} (k : String) (ev : ℚ × α) :
    ∀ st : CacheStore α, lookup (upsert k ev st) k = some ev
  | [] => by simp [upsert, lookup]
  | (k', e', v') :: rest => by
    by_cases h : k' = k
    · simp [upsert, h, lookup]
    · simp [upsert, h, lookup, lookup_upsert_self k ev rest]

theorem lookup_eq_none_of_not_mem {α : Type} {k : String} :
    ∀ {st : CacheStore α}, k ∉ st.map (fun p => p.1) → lookup st k = none
  | [], _ => rfl
  | (k', e', v') :: rest, h => by
    have hk : k' ≠ k := by
      intro heq
      exact h (by simp [heq])
    have hrest : k ∉ rest.map (fun p => p.1) := by
      intro hm
      exact h (by simp [hm])
    simp [lookup, hk, lookup_eq_none_of_not_mem hrest]

theorem removeKey_sublist {α : Type} (k : String) :
    ∀ st : CacheStore α, List.Sublist (removeKey st k) st
  | [] => List.Sublist.refl _
  | (k', e', v') :: rest => by
    by_cases h : k' = k
    · simp only [removeKey, if_pos h]
      exact List.sublist_cons_self _ _
    · simp only [removeKey, if_neg h]
      exact List.Sublist.cons₂ _ (removeKey_sublist k rest)

theorem mem_keys_upsert {α : Type} {m k : String} {ev : ℚ × α} :
    ∀ {st : CacheStore α}, m ∈ (upsert k ev st).map (fun p => p.1) →
      m = k ∨ m ∈ st.map (fun p => p.1)
  | [], h => by simpa [upsert] using h
  | (k', e', v') :: rest, h => by
    by_cases hk : k' = k
    · simp only [upsert, if_pos hk, List.map_cons, List.mem_cons] at h
      rcases h with rfl | h
      · exact Or.inl rfl
      · exact Or.inr (by simp [h])
    · simp only [upsert, if_neg hk, List.map_cons, List.mem_cons] at h
      rcases h with rfl | h
      · exact Or.inr (by simp)
      · rcases mem_keys_upsert h with h' | h'
        · exact Or.inl h'
        · exact Or.inr (by simp [h'])

theorem keysNodup_upsert {α : Type} (k : String) (ev : ℚ × α) :
    ∀ st : CacheStore α, keysNodup st → keysNodup (upsert k ev st)
  | [], _ => by simp [upsert, keysNodup]
  | (k', e', v') :: rest, h => by
    simp only [keysNodup, List.map_cons, List.nodup_cons] at h
    by_cases hk : k' = k
    · subst hk
      have hu : upsert k' ev ((k', e', v') :: rest) = (k', ev) :: rest := by
        simp [upsert]
      rw [hu]
      simp only [keysNodup, List.map_cons, List.nodup_cons]
      exact h
    · have hu : upsert k ev ((k', e', v') :: rest) = (k', e', v') :: upsert k ev rest := by
        simp [upsert, hk]
      rw [hu]
      simp only [keysNodup, List.map_cons, List.nodup_cons]
      refine ⟨?_, keysNodup_upsert k ev rest h.2⟩
      intro hmem
      rcases mem_keys_upsert hmem with rfl | h'
      · exact hk rfl
      · exact h.1 h'

theorem keysNodup_removeKey {α : Type} (k : String) (st : CacheStore α)
    (h : keysNodup st) : keysNodup (removeKey st k) := by
  unfold keysNodup at h ⊢
  exact ((removeKey_sublist k st).map (fun p => p.1)).nodup h

theorem lookup_removeKey_self {α : Type} (k : String) :
    ∀ st : CacheStore α, keysNodup st → lookup (removeKey st k) k = none
  | [], _ => rfl
  | (k', e', v') :: rest, h => by
    simp only [keysNodup, List.map_cons, List.nodup_cons] at h
    by_cases hk : k' = k
    · subst hk
      simp only [removeKey, if_pos rfl]
      exact lookup_eq_none_of_not_mem h.1
    · simp only [removeKey, if_neg hk, lookup, if_neg hk]
      exact lookup_removeKey_self k rest h.2

theorem length_upsert_le {α : Type} (k : String) (ev : ℚ × α) :
    ∀ st : CacheStore α, (upsert k ev st).length ≤ st.length + 1
  | [] => by simp [upsert]
  | (k', e', v') :: rest => by
    by_cases h : k' = k
    · simp [upsert, h]
    · simpa [upsert, h] using length_upsert_le k ev rest

theorem length_removeKey_mem {α : Type} {k : String} {e : ℚ} {v : α} :
    ∀ {st : CacheStore α}, (k, e, v) ∈ st → (removeKey st k).length + 1 = st.length
  | [], h => absurd h (List.not_mem_nil _)
  | (k', e', v') :: rest, h => by
    by_cases hk : k' = k
    · simp [removeKey, hk]
    · rcases List.mem_cons.mp h with heq | hmem
      · cases heq
        exact absurd rfl hk
      · simpa [removeKey, hk] using length_removeKey_mem hmem

theorem minEntry_cons_ne_none {α : Type} (q : String × ℚ × α) (qs : CacheStore α) :
    minEntry (q :: qs) ≠ none := by
  obtain ⟨q1, q2, q3⟩ := q
  rcases hm2 : minEntry qs with _ | ⟨p1, p2⟩ <;> simp only [minEntry, hm2]
  · simp
  · by_cases hle : q2 ≤ p2
    · rw [if_pos hle]
      simp
    · rw [if_neg hle]
      simp

theorem minEntry_mem {α : Type} :
    ∀ {st : CacheStore α} {k0 : String} {e0 : ℚ}, minEntry st = some (k0, e0) →
      ∃ v, (k0, e0, v) ∈ st
  | [], _, _, h => by simp [minEntry] at h
  | (k, e, v) :: rest, k0, e0, h => by
    rcases hm : minEntry rest with _ | ⟨k', e'⟩ <;> simp only [minEntry, hm] at h
    · obtain ⟨rfl, rfl⟩ : k = k0 ∧ e = e0 := by
        simpa [Prod.ext_iff] using h
      exact ⟨v, by simp⟩
    · by_cases hle : e ≤ e'
      · rw [if_pos hle] at h
        obtain ⟨rfl, rfl⟩ : k = k0 ∧ e = e0 := by
          simpa [Prod.ext_iff] using h
        exact ⟨v, by simp⟩
      · rw [if_neg hle] at h
        obtain ⟨rfl, rfl⟩ : k' = k0 ∧ e' = e0 := by
          simpa [Prod.ext_iff] using h
        obtain ⟨w, hw⟩ := minEntry_mem hm
        exact ⟨w, by simp [hw]⟩

theorem minEntry_le {α : Type} :
    ∀ {st : CacheStore α} {k0 : String} {e0 : ℚ}, minEntry st = some (k0, e0) →
      ∀ p ∈ st, e0 ≤ p.2.1
  | [], _, _, _, p, hp => absurd hp (List.not_mem_nil p)
  | (k, e, v) :: rest, k0, e0, h, p, hp => by
    rcases hm : minEntry rest with _ | ⟨k', e'⟩ <;> simp only [minEntry, hm] at h
    · obtain ⟨rfl, rfl⟩ : k = k0 ∧ e = e0 := by
        simpa [Prod.ext_iff] using h
      have hrest : rest = [] := by
        cases rest with
        | nil => rfl
        | cons q qs => exact absurd hm (minEntry_cons_ne_none q qs)
      subst hrest
      rcases List.mem_cons.mp hp with rfl | hp2
      · rfl
      · exact absurd hp2 (List.not_mem_nil p)
    · by_cases hle : e ≤ e'
      · rw [if_pos hle] at h
        obtain ⟨rfl, rfl⟩ : k = k0 ∧ e = e0 := by
          simpa [Prod.ext_iff] using h
        rcases List.mem_cons.mp hp with rfl | hp2
        · rfl
        · exact le_trans hle (minEntry_le hm p hp2)
      · rw [if_neg hle] at h
        obtain ⟨rfl, rfl⟩ : k' = k0 ∧ e' = e0 := by
          simpa [Prod.ext_iff] using h
        rcases List.mem_cons.mp hp with rfl | hp2
        · exact le_of_lt (lt_of_not_ge hle)
        · exact minEntry_le hm p hp2

theorem cacheSet_eq_of_some {α : Type} {maxItems : ℕ} {st : CacheStore α}
    {k : String} {v : α} {ttl now : ℚ} {st' : CacheStore α}
    (h : cacheSet maxItems st k v ttl now = some st') :
    ∃ base : CacheStore α,
      (base = st ∨ ∃ k0 e0, minEntry st = some (k0, e0) ∧ base = removeKey st k0) ∧
      st' = upsert k (now + ttl, v) base := by
  unfold cacheSet at h
  by_cases hc : maxItems ≤ st.length
  · rw [if_pos hc] at h
    rcases hm : minEntry st with _ | ⟨k0, e0⟩
    · simp [hm] at h
    · simp only [hm] at h
      exact ⟨removeKey st k0, Or.inr ⟨k0, e0, rfl, rfl⟩, (Option.some.inj h).symm⟩
  · rw [if_neg hc] at h
    exact ⟨st, Or.inl rfl, (Option.some.inj h).symm⟩

/-! ## C2: TTL round-trip and the no-expired-reads invariant -/

/-- C2.  After a successful `set(k, v, ttl)` at time `t0` (over a store with
distinct keys), a `get(k)` strictly before `t0 + ttl` returns `v`; a `get(k)`
strictly after `t0 + ttl` misses and removes the entry; and in general `get`
never returns a value whose recorded `expires_at` has passed. -/
theorem cache_ttl_roundtrip {α : Type} (maxItems : ℕ) (st : CacheStore α) (k : String)
    (v : α) (ttl t0 t1 : ℚ) (st' : CacheStore α) (hnd : keysNodup st)
    (hset : cacheSet maxItems st k v ttl t0 = some st') :
    (t1 < t0 + ttl → (cacheGet st' k t1).1 = some v) ∧
    (t0 + ttl < t1 → (cacheGet st' k t1).1 = none ∧ lookup (cacheGet st' k t1).2 k = none) ∧
    (∀ (st2 : CacheStore α) (key : String) (now : ℚ) (x : α),
      (cacheGet st2 key now).1 = some x → ∃ e, lookup st2 key = some (e, x) ∧ now ≤ e) := by
  obtain ⟨base, hbase, rfl⟩ := cacheSet_eq_of_some hset
  have hnb : keysNodup base := by
    rcases hbase with rfl | ⟨k0, e0, _, rfl⟩
    · exact hnd
    · exact keysNodup_removeKey k0 st hnd
  have hnd' : keysNodup (upsert k (t0 + ttl, v) base) := keysNodup_upsert k _ base hnb
  have hlk : lookup (upsert k (t0 + ttl, v) base) k = some (t0 + ttl, v) :=
    lookup_upsert_self k _ base
  refine ⟨?_, ?_, ?_⟩
  · intro h1
    simp only [cacheGet, hlk]
    rw [if_neg (by linarith : ¬ (t0 + ttl < t1))]
  · intro h1
    simp only [cacheGet, hlk]
    rw [if_pos h1]
    exact ⟨rfl, lookup_removeKey_self k _ hnd'⟩
  · intro st2 key now x hx
    rcases hl : lookup st2 key with _ | ⟨e, v'⟩
    · simp [cacheGet, hl] at hx
    · by_cases he : e < now
      · simp [cacheGet, hl, he] at hx
      · have hvx : v' = x := by simpa [cacheGet, hl, he] using hx
        subst hvx
        exact ⟨e, rfl, le_of_not_lt he⟩

theorem cache_ttl_roundtrip_witness :
    (cacheGet [("k", (5 : ℚ), (0 : ℕ))] "k" 3).1 = some 0 ∧
    (cacheGet [("k", (5 : ℚ), (0 : ℕ))] "k" 6).1 = none ∧
    lookup (cacheGet [("k", (5 : ℚ), (0 : ℕ))] "k" 6).2 "k" = none := by
  have hset : cacheSet 10 ([] : CacheStore ℕ) "k" 0 5 0 = some [("k", 5, 0)] := by decide
  have h3 := cache_ttl_roundtrip 10 [] "k" 0 5 0 3 [("k", 5, 0)] (by simp [keysNodup]) hset
  have h6 := cache_ttl_roundtrip 10 [] "k" 0 5 0 6 [("k", 5, 0)] (by simp [keysNodup]) hset
  exact ⟨h3.1 (by norm_num), (h6.2.1 (by norm_num)).1, (h6.2.1 (by norm_num)).2⟩

/-! ## C3: bounded size and earliest-expiry eviction -/

theorem cacheGet_snd_length_le {α : Type} (st : CacheStore α) (k : String) (now : ℚ) :
    (cacheGet st k now).2.length ≤ st.length := by
  rcases hl : lookup st k with _ | ⟨e, v⟩
  · simp [cacheGet, hl]
  · by_cases he : e < now
    · simp only [cacheGet, hl, if_pos he]
      exact (removeKey_sublist k st).length_le
    · simp [cacheGet, hl, he]

theorem applyOp_length_le {α : Type} (maxItems : ℕ) (op : CacheOp α) (st : CacheStore α)
    (h : st.length ≤ maxItems) : (applyOp maxItems st op).length ≤ maxItems := by
  cases op with
  | get k now => exact le_trans (cacheGet_snd_length_le st k now) h
  | delPre p => exact le_trans (List.length_filter_le _ _) h
  | set k v ttl now =>
    rcases hset : cacheSet maxItems st k v ttl now with _ | st'
    · simpa [applyOp, hset] using h
    · simp only [applyOp, hset, Option.getD_some]
      unfold cacheSet at hset
      by_cases hc : maxItems ≤ st.length
      · rw [if_pos hc] at hset
        rcases hm : minEntry st with _ | ⟨k0, e0⟩
        · simp [hm] at hset
        · simp only [hm] at hset
          obtain ⟨v0, hv0⟩ := minEntry_mem hm
          have hrem : (removeKey st k0).length + 1 = st.length := length_removeKey_mem hv0
          have hup := length_upsert_le k (now + ttl, v) (removeKey st k0)
          obtain rfl := Option.some.inj hset
          omega
      · rw [if_neg hc] at hset
        obtain rfl := Option.some.inj hset
        have hup := length_upsert_le k (now + ttl, v) st
        omega

theorem runOps_length_le {α : Type} (maxItems : ℕ) :
    ∀ (ops : List (CacheOp α)) (st : CacheStore α), st.length ≤ maxItems →
      (runOps maxItems st ops).length ≤ maxItems
  | [], _, h => h
  | op :: ops, st, h =>
    runOps_length_le maxItems ops _ (applyOp_length_le maxItems op st h)

/-- C3.  Starting from the empty store, no sequence of `get`/`set`/
`delete_prefix` operations ever leaves more than `max_items` entries; and a
`set` issued while the store holds exactly `max_items > 0` entries evicts
precisely one entry, one achieving the minimal `expires_at`, before
inserting the new entry. -/
theorem cache_store_bounded {α : Type} (maxItems : ℕ) :
    (∀ ops : List (CacheOp α), (runOps maxItems [] ops).length ≤ maxItems) ∧
    (∀ (st : CacheStore α) (k : String) (v : α) (ttl now : ℚ),
      st.length = maxItems → 0 < maxItems →
      ∃ k0 e0, minEntry st = some (k0, e0) ∧ (∀ p ∈ st, e0 ≤ p.2.1) ∧
        (removeKey st k0).length + 1 = st.length ∧
        cacheSet maxItems st k v ttl now = some (upsert k (now + ttl, v) (removeKey st k0))) := by
  constructor
  · intro ops
    exact runOps_length_le maxItems ops [] (by simp)
  · intro st k v ttl now hlen hpos
    have hne : st ≠ [] := by
      intro h
      rw [h] at hlen
      simp at hlen
      omega
    rcases hm : minEntry st with _ | ⟨k0, e0⟩
    · exfalso
      cases st with
      | nil => exact hne rfl
      | cons q qs => exact absurd hm (minEntry_cons_ne_none q qs)
    · obtain ⟨v0, hv0⟩ := minEntry_mem hm
      refine ⟨k0, e0, rfl, minEntry_le hm, length_removeKey_mem hv0, ?_⟩
      unfold cacheSet
      rw [if_pos (le_of_eq hlen.symm), hm]

theorem cache_store_bounded_witness :
    (runOps 1 ([] : CacheStore ℕ) [CacheOp.set "a" 0 5 0, CacheOp.set "b" 1 3 0]).length ≤ 1 ∧
    cacheSet 1 [("a", (5 : ℚ), (0 : ℕ))] "b" 1 3 0 = some [("b", (0 : ℚ) + 3, 1)] := by
  obtain ⟨h1, h2⟩ := cache_store_bounded (α := ℕ) 1
  refine ⟨h1 _, ?_⟩
  obtain ⟨k0, e0, hm, _hle, _hlen, hset⟩ := h2 [("a", 5, 0)] "b" 1 3 0 (by decide) (by decide)
  have hval : minEntry [("a", (5 : ℚ), (0 : ℕ))] = some ("a", 5) := by decide
  rw [hval] at hm
  obtain ⟨rfl, rfl⟩ : ("a" : String) = k0 ∧ (5 : ℚ) = e0 := by
    simpa [Prod.ext_iff] using Option.some.inj hm
  rw [hset]
  rfl

/-! ## C8: disabled cache is inert -/

/-- C8.  A `CacheService` with `enabled = false` always misses on `get` and
ignores `set`, leaving the backend store untouched in both cases. -/
theorem disabled_cache_inert {α : Type} (svc : CacheService α) (h : svc.enabled = false)
    (k : String) (v : α) (ttl : Option ℚ) (now : ℚ) :
    serviceGet svc k now = (none, svc) ∧ serviceSet svc k v ttl now = some svc := by
  constructor <;> simp [serviceGet, serviceSet, h]

theorem disabled_cache_inert_witness :
    serviceGet (⟨false, 30, 100, [("x", (9 : ℚ), (7 : ℕ))]⟩ : CacheService ℕ) "x" 50
      = (none, ⟨false, 30, 100, [("x", 9, 7)]⟩) ∧
    serviceSet (⟨false, 30, 100, [("x", (9 : ℚ), (7 : ℕ))]⟩ : CacheService ℕ) "y" 1 (some 5) 0
      = some ⟨false, 30, 100, [("x", 9, 7)]⟩ :=
  ⟨(disabled_cache_inert ⟨false, 30, 100, [("x", 9, 7)]⟩ rfl "x" 7 none 50).1,
    (disabled_cache_inert ⟨false, 30, 100, [("x", 9, 7)]⟩ rfl "y" 1 (some 5) 0).2⟩

/-! ## C9: a zero TTL silently selects the default search TTL -/

/-- C9.  On an enabled service, `set(key, value, ttl=0)` behaves exactly like
`set(key, value)` with no TTL: the falsy `0` is replaced by the configured
default search TTL, so the entry is stored expiring at
`now + search_ttl`, not already expired. -/
theorem zero_ttl_uses_default {α : Type} (svc : CacheService α) (h : svc.enabled = true)
    (k : String) (v : α) (now : ℚ) :
    serviceSet svc k v (some 0) now = serviceSet svc k v none now ∧
    ∀ svc', serviceSet svc k v (some 0) now = some svc' →
      lookup svc'.store k = some (now + svc.search_ttl, v) := by
  constructor
  · simp [serviceSet, ttlOrDefault]
  · intro svc' hset
    rw [serviceSet, if_pos (by rw [h])] at hset
    rcases hmap : cacheSet svc.max_items svc.store k v
        (ttlOrDefault (some 0) svc.search_ttl) now with _ | st'
    · rw [hmap] at hset
      cases hset
    · rw [hmap] at hset
      obtain ⟨base, _, hup⟩ := cacheSet_eq_of_some hmap
      cases hset
      simp only [hup, ttlOrDefault, if_pos rfl]
      exact lookup_upsert_self k _ base

theorem zero_ttl_uses_default_witness :
    serviceSet (⟨true, 30, 100, []⟩ : CacheService ℕ) "k" 7 (some 0) 2
      = serviceSet (⟨true, 30, 100, []⟩ : CacheService ℕ) "k" 7 none 2 ∧
    lookup ((⟨true, 30, 100, [("k", (2 : ℚ) + 30, 7)]⟩ : CacheService ℕ)).store "k"
      = some (2 + 30, 7) := by
  have h := zero_ttl_uses_default (⟨true, 30, 100, []⟩ : CacheService ℕ) rfl "k" 7 2
  exact ⟨h.1, h.2 ⟨true, 30, 100, [("k", 2 + 30, 7)]⟩ rfl⟩

/-! ## C4: shape of the middleware rejection response -/

/-- C4.  Every response built by `_reject` has status 429, a JSON body with
the human-readable detail and
`retry_after = max(1, int(reset_epoch_ms / 1000 - now))` in whole seconds,
a `Retry-After` header carrying that same value, and an `X-Request-ID`
header equal to `request.state.request_id` when present and the literal
`"unknown"` otherwise.  The retry value is at least 1. -/
theorem reject_response_shape (limitStr scope : String) (tenantId : Option String)
    (resetEpochMs : ℤ) (now : ℚ) (requestId : Option String) :
    (rejectResponse limitStr scope tenantId resetEpochMs now requestId).status = 429 ∧
    (rejectResponse limitStr scope tenantId resetEpochMs now requestId).body =
      some ⟨if scope = "tenant" then
              "Tenant rate limit exceeded for " ++ tenantId.getD "None" ++ ": " ++ limitStr
            else "Rate limit exceeded: " ++ limitStr,
            max 1 (pyInt ((resetEpochMs : ℚ) / 1000 - now))⟩ ∧
    (rejectResponse limitStr scope tenantId resetEpochMs now requestId).headers =
      [("Retry-After", toString (max 1 (pyInt ((resetEpochMs : ℚ) / 1000 - now)))),
       ("X-Request-ID", requestId.getD "unknown")] ∧
    1 ≤ max 1 (pyInt ((resetEpochMs : ℚ) / 1000 - now)) :=
  ⟨rfl, rfl, rfl, le_max_left 1 _⟩

/-! ## C5: backend selection on construction failure -/

/-- C5, counterexample.  A shared-store address is configured, the Redis
cache construction fails, and production-strict mode is off — yet
`_default_backend` does not fall back to the in-process cache: the
construction error propagates uncaught (there is no `try` in
`_default_backend`, unlike `_build_limiter`). -/
theorem cache_backend_no_fallback_cex :
    defaultCacheBackend ⟨some "redis://localhost:6379", "development", false, 100⟩ false
      = .error "redis construction failed" := rfl

/-- C5, amended.  The *limiter* behaves as the claim says: on a failed Redis
construction it falls back to in-process unless production-strict mode is
set, in which case the error propagates.  The *cache* does not catch the
construction failure at all — it propagates in every mode; the cache's
production-strict check instead fires when no shared-store address is
configured, refusing the in-process fallback. -/
theorem backend_fallback_amended :
    (∀ (s : Settings) (url : String), s.redis_url = some url → prodStrict s = false →
      buildLimiter s false = .ok .inMemory) ∧
    (∀ (s : Settings) (url : String), s.redis_url = some url → prodStrict s = true →
      buildLimiter s false = .error "rate limit redis backend failed") ∧
    (∀ (s : Settings) (url : String), s.redis_url = some url →
      defaultCacheBackend s false = .error "redis construction failed") ∧
    (∀ s : Settings, s.redis_url = none → prodStrict s = true →
      defaultCacheBackend s true
        = .error "Redis is required for cache in production environment") := by
  refine ⟨?_, ?_, ?_, ?_⟩
  · intro s url h hp
    simp [buildLimiter, h, hp]
  · intro s url h hp
    simp [buildLimiter, h, hp]
  · intro s url h
    simp [defaultCacheBackend, h]
  · intro s h hp
    simp [defaultCacheBackend, h, hp]

theorem backend_fallback_amended_witness :
    buildLimiter ⟨some "redis://h", "development", false, 50⟩ false = .ok .inMemory ∧
    buildLimiter ⟨some "redis://h", "production", true, 50⟩ false
      = .error "rate limit redis backend failed" ∧
    defaultCacheBackend ⟨some "redis://h", "development", false, 50⟩ false
      = .error "redis construction failed" ∧
    defaultCacheBackend ⟨none, "production", true, 50⟩ true
      = .error "Redis is required for cache in production environment" := by
  obtain ⟨h1, h2, h3, h4⟩ := backend_fallback_amended
  exact ⟨h1 _ "redis://h" rfl (by decide), h2 _ "redis://h" rfl (by decide),
    h3 _ "redis://h" rfl, h4 _ rfl (by decide)⟩

/-! ## C10: quota headers appear exactly on admitted requests -/

theorem mem_keys_setHeader_self (n v : String) :
    ∀ hs : List (String × String), n ∈ (setHeader hs n v).map Prod.fst
  | [] => by simp [setHeader]
  | (k, w) :: rest => by
    by_cases h : k = n
    · simp [setHeader, h]
    · simp only [setHeader, if_neg h, List.map_cons, List.mem_cons]
      exact Or.inr (mem_keys_setHeader_self n v rest)

theorem mem_keys_setHeader_mono {m : String} (n v : String) :
    ∀ hs : List (String × String), m ∈ hs.map Prod.fst →
      m ∈ (setHeader hs n v).map Prod.fst
  | [], h => by simp at h
  | (k, w) :: rest, h => by
    rw [List.map_cons] at h
    rcases List.mem_cons.mp h with rfl | hm
    · by_cases hk : m = n
      · subst hk
        have hu : setHeader ((m, w) :: rest) m v = (m, v) :: rest := by
          simp [setHeader]
        rw [hu]
        simp
      · have hu : setHeader ((m, w) :: rest) n v = (m, w) :: setHeader rest n v := by
          simp [setHeader, hk]
        rw [hu]
        simp
    · by_cases hk : k = n
      · have hu : setHeader ((k, w) :: rest) n v = (n, v) :: rest := by
          simp [setHeader, hk]
        rw [hu]
        simp only [List.map_cons, List.mem_cons]
        exact Or.inr hm
      · have hu : setHeader ((k, w) :: rest) n v = (k, w) :: setHeader rest n v := by
          simp [setHeader, hk]
        rw [hu]
        simp only [List.map_cons, List.mem_cons]
        exact Or.inr (mem_keys_setHeader_mono n v rest hm)

theorem quota_mem_apply_tenant (gcfg tcfg : RateLimitConfig) (resp : HttpResponse)
    (g tr : RateLimitResult) :
    ∀ n ∈ quotaHeaderNames,
      n ∈ (applyQuotaHeaders gcfg tcfg resp g (some tr)).headers.map Prod.fst := by
  intro n hn
  simp only [quotaHeaderNames, List.mem_cons, List.not_mem_nil, or_false] at hn
  simp only [applyQuotaHeaders]
  rcases hn with rfl | rfl | rfl | rfl | rfl | rfl
  · exact mem_keys_setHeader_mono _ _ _ (mem_keys_setHeader_mono _ _ _
      (mem_keys_setHeader_mono _ _ _ (mem_keys_setHeader_mono _ _ _
      (mem_keys_setHeader_mono _ _ _ (mem_keys_setHeader_self _ _ _)))))
  · exact mem_keys_setHeader_mono _ _ _ (mem_keys_setHeader_mono _ _ _
      (mem_keys_setHeader_mono _ _ _ (mem_keys_setHeader_mono _ _ _
      (mem_keys_setHeader_self _ _ _))))
  · exact mem_keys_setHeader_mono _ _ _ (mem_keys_setHeader_mono _ _ _
      (mem_keys_setHeader_mono _ _ _ (mem_keys_setHeader_self _ _ _)))
  · exact mem_keys_setHeader_mono _ _ _ (mem_keys_setHeader_mono _ _ _
      (mem_keys_setHeader_self _ _ _))
  · exact mem_keys_setHeader_mono _ _ _ (mem_keys_setHeader_self _ _ _)
  · exact mem_keys_setHeader_self _ _ _

theorem quota_not_mem_of_reject {l : List String}
    (h : l = ["Retry-After", "X-Request-ID"]) :
    ∀ n ∈ quotaHeaderNames, n ∉ l := by
  subst h
  decide

theorem quota_mem_apply_global (gcfg tcfg : RateLimitConfig) (resp : HttpResponse)
    (g : RateLimitResult) :
    "X-RateLimit-Limit" ∈ (applyQuotaHeaders gcfg tcfg resp g none).headers.map Prod.fst := by
  simp only [applyQuotaHeaders]
  exact mem_keys_setHeader_mono _ _ _ (mem_keys_setHeader_mono _ _ _
    (mem_keys_setHeader_self _ _ _))

/-- C10.  A request the middleware rejects (whether at the global or the
tenant check) gets a response whose middleware-set headers are exactly
`Retry-After` and `X-Request-ID` — none of the `X-RateLimit-*` quota
headers; the quota headers are attached (by `_apply_headers`) exactly to the
responses of requests that passed every limiter check that applied to
them. -/
theorem reject_no_quota_headers (gs ts : String) (gcfg tcfg : RateLimitConfig)
    (st : LimiterState) (req : RequestModel) (now : ℚ) (handlerResp : HttpResponse)
    (hbp : bypassPaths.contains req.path = false) :
    ((hit st gcfg req.ipIdentifier now).1.allowed = false →
      (dispatch gs ts gcfg tcfg st req now handlerResp).1.headers.map Prod.fst
        = ["Retry-After", "X-Request-ID"] ∧
      ∀ n ∈ quotaHeaderNames,
        n ∉ (dispatch gs ts gcfg tcfg st req now handlerResp).1.headers.map Prod.fst) ∧
    (∀ tid, req.tenantId = some tid →
      (hit st gcfg req.ipIdentifier now).1.allowed = true →
      (hit (hit st gcfg req.ipIdentifier now).2 tcfg ("tenant:" ++ tid) now).1.allowed = false →
      (dispatch gs ts gcfg tcfg st req now handlerResp).1.headers.map Prod.fst
        = ["Retry-After", "X-Request-ID"] ∧
      ∀ n ∈ quotaHeaderNames,
        n ∉ (dispatch gs ts gcfg tcfg st req now handlerResp).1.headers.map Prod.fst) ∧
    ((hit st gcfg req.ipIdentifier now).1.allowed = true → req.tenantId = none →
      (dispatch gs ts gcfg tcfg st req now handlerResp).1
        = applyQuotaHeaders gcfg tcfg handlerResp (hit st gcfg req.ipIdentifier now).1 none ∧
      "X-RateLimit-Limit"
        ∈ (dispatch gs ts gcfg tcfg st req now handlerResp).1.headers.map Prod.fst) ∧
    (∀ tid, req.tenantId = some tid →
      (hit st gcfg req.ipIdentifier now).1.allowed = true →
      (hit (hit st gcfg req.ipIdentifier now).2 tcfg ("tenant:" ++ tid) now).1.allowed = true →
      (dispatch gs ts gcfg tcfg st req now handlerResp).1
        = applyQuotaHeaders gcfg tcfg handlerResp (hit st gcfg req.ipIdentifier now).1
            (some (hit (hit st gcfg req.ipIdentifier now).2 tcfg ("tenant:" ++ tid) now).1) ∧
      ∀ n ∈ quotaHeaderNames,
        n ∈ (dispatch gs ts gcfg tcfg st req now handlerResp).1.headers.map Prod.fst) := by
  have hnb : ¬ req.path ∈ bypassPaths := by
    simpa using hbp
  refine ⟨?_, ?_, ?_, ?_⟩
  · intro hg
    have hd : (dispatch gs ts gcfg tcfg st req now handlerResp).1
        = rejectResponse gs "global" none (hit st gcfg req.ipIdentifier now).1.reset_epoch_ms
            now req.requestId := by
      simp [dispatch, hnb, hg]
    have hh : (dispatch gs ts gcfg tcfg st req now handlerResp).1.headers.map Prod.fst
        = ["Retry-After", "X-Request-ID"] := by
      rw [hd]
      rfl
    exact ⟨hh, quota_not_mem_of_reject hh⟩
  · intro tid htid hg ht
    have hd : (dispatch gs ts gcfg tcfg st req now handlerResp).1
        = rejectResponse ts "tenant" (some tid)
            (hit (hit st gcfg req.ipIdentifier now).2 tcfg ("tenant:" ++ tid) now).1.reset_epoch_ms
            now req.requestId := by
      simp [dispatch, hnb, hg, htid, ht]
    have hh : (dispatch gs ts gcfg tcfg st req now handlerResp).1.headers.map Prod.fst
        = ["Retry-After", "X-Request-ID"] := by
      rw [hd]
      rfl
    exact ⟨hh, quota_not_mem_of_reject hh⟩
  · intro hg htid
    have hd : (dispatch gs ts gcfg tcfg st req now handlerResp).1
        = applyQuotaHeaders gcfg tcfg handlerResp (hit st gcfg req.ipIdentifier now).1 none := by
      simp [dispatch, hnb, hg, htid]
    rw [hd]
    exact ⟨rfl, quota_mem_apply_global gcfg tcfg handlerResp _⟩
  · intro tid htid hg ht
    have hd : (dispatch gs ts gcfg tcfg st req now handlerResp).1
        = applyQuotaHeaders gcfg tcfg handlerResp (hit st gcfg req.ipIdentifier now).1
            (some (hit (hit st gcfg req.ipIdentifier now).2 tcfg ("tenant:" ++ tid) now).1) := by
      simp [dispatch, hnb, hg, htid, ht]
    rw [hd]
    exact ⟨rfl, quota_mem_apply_tenant gcfg tcfg handlerResp _ _⟩

theorem reject_no_quota_headers_witness :
    (dispatch "1/minute" "2/minute" ⟨1, 60⟩ ⟨2, 60⟩
      (hit emptyLimiter ⟨1, 60⟩ "ip:1.2.3.4" 0).2
      ⟨"/v1/messages", none, "ip:1.2.3.4", some "rid"⟩ 1 ⟨200, [], none⟩).1.headers.map Prod.fst
      = ["Retry-After", "X-Request-ID"] := by
  have h := reject_no_quota_headers "1/minute" "2/minute" ⟨1, 60⟩ ⟨2, 60⟩
    (hit emptyLimiter ⟨1, 60⟩ "ip:1.2.3.4" 0).2
    ⟨"/v1/messages", none, "ip:1.2.3.4", some "rid"⟩ 1 ⟨200, [], none⟩ (by decide)
  exact (h.1 (by decide)).1

/-! ## C6: limit-string parsing -/

theorem not_ws_of_digit {c : Char} (h : c.isDigit = true) : isWsChar c = false := by
  cases hw : isWsChar c
  · rfl
  · exfalso
    simp only [isWsChar, Bool.or_eq_true, decide_eq_true_eq] at hw
    rcases hw with ((((rfl | rfl) | rfl) | rfl) | rfl) | rfl <;> exact absurd h (by decide)

/-- C6, counterexample.  `"200/per minute"` is not of the spec's
`<amount>[/ per ]<second|minute|hour|day>[s]` shape (its separator is a
slash immediately followed by the word `per`), yet `_parse_limit` accepts it
as 200 per minute: the claim that every string outside the stated form fails
parsing is false. -/
theorem parse_limit_lenient_cex :
    specLimitOk "200/per minute" = false ∧
    parseLimit "200/per minute" = some ⟨200, 60⟩ := by
  exact ⟨by decide, by decide⟩

theorem specLimitOk_parses {s : String} (h : specLimitOk s = true) :
    (parseLimit s).isSome = true := by
  unfold specLimitOk at h
  rw [Bool.and_eq_true] at h
  obtain ⟨hne, hmem'⟩ := h
  have hmem : s.toList.dropWhile Char.isDigit ∈ specTails := of_decide_eq_true hmem'
  have hne' : (s.toList.takeWhile Char.isDigit).isEmpty = false := by
    simpa using hne
  have hnil : s.toList.dropWhile isWsChar = s.toList := by
    cases hL : s.toList with
    | nil => simp
    | cons c t =>
      have hc : c.isDigit = true := by
        cases hcc : c.isDigit
        · rw [hL, List.takeWhile_cons, hcc] at hne'
          simp at hne'
        · rfl
      rw [List.dropWhile_cons, not_ws_of_digit hc]
      simp
  have hps : parseLimit s
      = (parseTail (s.toList.dropWhile Char.isDigit)).map
          (fun w => ⟨digitsVal (s.toList.takeWhile Char.isDigit), w⟩) := by
    simp only [parseLimit, hnil, hne', Bool.false_eq_true, if_false]
  rw [hps, optMap_isSome]
  have hexp : specTails =
      ["second".toList, '/' :: "second".toList, " per second".toList,
       "seconds".toList, '/' :: "seconds".toList, " per seconds".toList,
       "minute".toList, '/' :: "minute".toList, " per minute".toList,
       "minutes".toList, '/' :: "minutes".toList, " per minutes".toList,
       "hour".toList, '/' :: "hour".toList, " per hour".toList,
       "hours".toList, '/' :: "hours".toList, " per hours".toList,
       "day".toList, '/' :: "day".toList, " per day".toList,
       "days".toList, '/' :: "days".toList, " per days".toList] := by
    decide
  rw [hexp] at hmem
  revert hmem
  generalize s.toList.dropWhile Char.isDigit = tl
  intro hmem
  simp only [List.mem_cons, List.not_mem_nil, or_false] at hmem
  rcases hmem with rfl | rfl | rfl | rfl | rfl | rfl | rfl | rfl | rfl | rfl | rfl | rfl |
    rfl | rfl | rfl | rfl | rfl | rfl | rfl | rfl | rfl | rfl | rfl | rfl <;> decide

/-- C6, amended.  The three concrete behaviours hold (`"200/minute"` parses
to 200 per 60 s, `"10 per second"` to a 1 s window, `"abc"` fails), and
every string of the spec's `<amount>[/ per ]<unit>[s]` shape parses
successfully; but the accepted language is strictly larger than that shape —
`_parse_limit` also tolerates surrounding whitespace, a missing separator,
and a slash combined with `per` (see the counterexample), so not every
string outside the stated form fails. -/
theorem parse_limit_amended :
    parseLimit "200/minute" = some ⟨200, 60⟩ ∧
    parseLimit "10 per second" = some ⟨10, 1⟩ ∧
    parseLimit "abc" = none ∧
    ∀ s : String, specLimitOk s = true → (parseLimit s).isSome = true :=
  ⟨by decide, by decide, by decide, fun _ h => specLimitOk_parses h⟩

theorem parse_limit_amended_witness : (parseLimit "3 per day").isSome = true :=
  parse_limit_amended.2.2.2 "3 per day" (by decide)

end MemoryLayer
